import Mathlib

/-!
Formal model of the indicator library and backtest engine of `main.py`
(EMA/SMA/RSI/ATR indicators, signal generation, fixed-fractional position
sizing, and the single-position backtest loop), over exact rationals.
Python floats are modelled as `ℚ`; float literals such as `1e-8` become the
corresponding rationals.  Python's truncating list indexing is modelled with
`List.getD` (the backtest loop only reads indices that are in range for the
inputs it is run on, starting at index 2).
-/

namespace TradeBot

/-- Helper for `ema`: given the previous output value, emit the remaining
exponentially smoothed values (`out.append((v - out[-1]) * alpha + out[-1])`). -/
def emaAux (alpha : ℚ) : ℚ → List ℚ → List ℚ
  | _, [] => []
  | prev, v :: vs =>
    let nxt := (v - prev) * alpha + prev
    nxt :: emaAux alpha nxt vs

/-- Function `ema(values, span)` from `main.py`: empty on empty input, else seeded with
`values[0]` and smoothed with `alpha = 2/(span+1)`. -/
def ema (values : List ℚ) (span : ℚ) : List ℚ :=
  match values with
  | [] => []
  | v0 :: rest => v0 :: emaAux (2 / (span + 1)) v0 rest

/-- Helper for `sma`: the running-sum loop of `main.py`'s `sma`, carrying the
loop index `i` and the running sum `s`; `values` is the full input list (used
for `values[i-period]`), the last argument is the remaining suffix. -/
def smaGo (period : ℕ) (values : List ℚ) : ℕ → ℚ → List ℚ → List ℚ
  | _, _, [] => []
  | i, s, v :: rest =>
    let s1 := s + v
    if period ≤ i then
      let s2 := s1 - values.getD (i - period) 0
      s2 / period :: smaGo period values (i + 1) s2 rest
    else if (i : ℤ) = (period : ℤ) - 1 then
      s1 / period :: smaGo period values (i + 1) s1 rest
    else smaGo period values (i + 1) s1 rest

/-- Function `sma(values, period)` from `main.py`: running-sum simple moving average,
first output at input index `period-1`. -/
def sma (values : List ℚ) (period : ℕ) : List ℚ :=
  smaGo period values 0 0 values

/-- The naive windowed mean the spec describes: one output per window start
`j`, equal to `mean(values[j .. j+period-1])`.  (Stated from the spec's words,
for comparison with the running-sum `sma` of the source.) -/
def smaSpec (values : List ℚ) (period : ℕ) : List ℚ :=
  (List.range (values.length + 1 - period)).map fun j =>
    ((values.drop j).take period).sum / period

/-- Helper for `rsi`: the Wilder-smoothing loop of `main.py`'s `rsi`, carrying
the running `up_avg` and `down_avg` and consuming `(d_up, d_down)` pairs. -/
def rsiGo (period : ℕ) : ℚ → ℚ → List (ℚ × ℚ) → List ℚ
  | _, _, [] => []
  | up_avg, down_avg, dd :: rest =>
    let ua := (up_avg * ((period : ℚ) - 1) + dd.1) / period
    let da := (down_avg * ((period : ℚ) - 1) + dd.2) / period
    let rs := ua / (da + 1 / 10 ^ 12)
    (100 - 100 / (1 + rs)) :: rsiGo period ua da rest

/-- Function `rsi(values, period)` from `main.py`: neutral `50`s when fewer than
`period+1` values; otherwise seed averages from the first `period`
gains/losses (the zero down-seed replaced by `1e-9`, Python's `or`), a
`period+1` warm-up prefix of `50`s, then Wilder smoothing. -/
def rsi (values : List ℚ) (period : ℕ) : List ℚ :=
  if values.length < period + 1 then List.replicate values.length 50
  else
    let deltas := List.zipWith (fun a b => a - b) values.tail values
    let ups := deltas.map fun d => if 0 < d then d else 0
    let downs := deltas.map fun d => if d < 0 then -d else 0
    let up_avg := (ups.take period).sum / period
    let down_avg0 := (downs.take period).sum / period
    let down_avg := if down_avg0 = 0 then 1 / 10 ^ 9 else down_avg0
    List.replicate (period + 1) 50 ++
      rsiGo period up_avg down_avg ((ups.drop period).zip (downs.drop period))

/-- Function `atr(highs, lows, closes, period)` from `main.py`: true ranges from index 1
onward, then `sma` of them. -/
def atr (highs lows closes : List ℚ) (period : ℕ) : List ℚ :=
  let trs := (List.range (closes.length - 1)).map fun k =>
    max (highs.getD (k + 1) 0 - lows.getD (k + 1) 0)
      (max |highs.getD (k + 1) 0 - closes.getD k 0|
        |lows.getD (k + 1) 0 - closes.getD k 0|)
  sma trs period

/-- One OHLCV candle (`opn` is the `open` field of the source's dicts, which is
a reserved word in Lean). -/
structure Candle where
  time : ℤ
  opn : ℚ
  high : ℚ
  low : ℚ
  close : ℚ
  volume : ℚ
  deriving DecidableEq

/-- The open-position record built in `run_backtest`
(`{"entry":…, "qty":…, "stop":…, "entry_time":…}`). -/
structure Position where
  entry : ℚ
  qty : ℚ
  stop : ℚ
  entry_time : ℤ
  deriving DecidableEq

/-- A closed-trade record appended to `trades_bt` in `run_backtest`. -/
structure Trade where
  time : ℤ
  symbol : String
  entry : ℚ
  exit : ℚ
  profit : ℚ
  balance_after : ℚ
  reason : String
  deriving DecidableEq

/-- The loop state of `run_backtest`: `equity`, the optional open position,
and the trade ledger. -/
structure BTState where
  equity : ℚ
  position : Option Position
  trades_bt : List Trade
  deriving DecidableEq

/-- Signal `cross_up` of the loop body: `(f_prev <= s_prev) and (f_now > s_now)`,
with `f_now = ema_fast[i-1]`, `f_prev = ema_fast[i-2]` (one bar in arrears). -/
def cross_up (ema_fast ema_slow : List ℚ) (i : ℕ) : Bool :=
  decide (ema_fast.getD (i - 2) 0 ≤ ema_slow.getD (i - 2) 0) &&
  decide (ema_slow.getD (i - 1) 0 < ema_fast.getD (i - 1) 0)

/-- Signal `cross_down` of the loop body: `(f_prev >= s_prev) and (f_now < s_now)`. -/
def cross_down (ema_fast ema_slow : List ℚ) (i : ℕ) : Bool :=
  decide (ema_slow.getD (i - 2) 0 ≤ ema_fast.getD (i - 2) 0) &&
  decide (ema_fast.getD (i - 1) 0 < ema_slow.getD (i - 1) 0)

/-- Filter `vol_ok` of the loop body: true unless `i > 21`, in which case the bar's
volume must exceed `VOLUME_MULTIPLIER` times the mean of `volumes[i-21:i-1]`. -/
def vol_ok (volume_multiplier : ℚ) (volumes : List ℚ) (i : ℕ) : Bool :=
  if 21 < i then
    decide (((volumes.drop (i - 21)).take 20).sum / 20 * volume_multiplier <
      volumes.getD (i - 1) 0)
  else true

/-- Filter `rsi_ok` of the loop body: `rsi_list[i-1]` strictly between 25 and 75. -/
def rsi_ok (rsi_list : List ℚ) (i : ℕ) : Bool :=
  decide (25 < rsi_list.getD (i - 1) 0) && decide (rsi_list.getD (i - 1) 0 < 75)

/-- One iteration of the `run_backtest` scan loop at index `i` (executed for
`i = 2 .. len(closes)-2`): the guard `continue`, the Flat→Holding entry with
fixed-fractional sizing clamped at `1e-8`, and the two Holding→Flat exits
(stop first, then crossover-down). -/
def step (volume_multiplier risk_per_trade stop_loss_pct : ℚ)
    (closes lows volumes : List ℚ) (times : List ℤ)
    (ema_fast ema_slow rsi_list : List ℚ) (st : BTState) (i : ℕ) : BTState :=
  let price := closes.getD i 0
  if ema_fast.length ≤ i ∨ ema_slow.length ≤ i ∨
      ((rsi_list.length : ℤ) ≤ (i : ℤ) - 1) then st
  else
    match st.position with
    | none =>
      if cross_up ema_fast ema_slow i && vol_ok volume_multiplier volumes i &&
          rsi_ok rsi_list i then
        let risk_amount := st.equity * risk_per_trade
        let stop_price := price * (1 - stop_loss_pct)
        let qty0 := if stop_loss_pct ≤ 0 then st.equity / price
          else risk_amount / (price * stop_loss_pct)
        let qty := max (1 / 10 ^ 8) qty0
        let pos : Position :=
          { entry := price, qty := qty,
            stop := stop_price, entry_time := times.getD i 0 }
        { st with position := some pos }
      else st
    | some pos =>
      if lows.getD i 0 ≤ pos.stop then
        let exit_price := pos.stop
        let proceeds := pos.qty * exit_price
        let profit := proceeds - pos.qty * pos.entry
        { equity := proceeds, position := none,
          trades_bt := st.trades_bt ++
            [{ time := times.getD i 0, symbol := "",
               entry := pos.entry, exit := exit_price, profit := profit,
               balance_after := proceeds, reason := "SL" }] }
      else if cross_down ema_fast ema_slow i then
        let exit_price := price
        let proceeds := pos.qty * exit_price
        let profit := proceeds - pos.qty * pos.entry
        { equity := proceeds, position := none,
          trades_bt := st.trades_bt ++
            [{ time := times.getD i 0, symbol := "",
               entry := pos.entry, exit := exit_price, profit := profit,
               balance_after := proceeds, reason := "X" }] }
      else st

/-- The config constants of `main.py` at their defaults. -/
def EMA_FAST : ℕ := 8

/-- Slow EMA span default. -/
def EMA_SLOW : ℕ := 21

/-- RSI period default. -/
def RSI_PERIOD : ℕ := 14

/-- Volume-filter multiplier default. -/
def VOLUME_MULTIPLIER : ℚ := 1

/-- The result dict of `run_backtest` (the constant `equity_curve: None` field
is omitted). -/
structure BacktestResult where
  initial_balance : ℚ
  final_balance : ℚ
  trades : List Trade
  deriving DecidableEq

/-- Function `run_backtest(candles, initial_balance, risk_per_trade, stop_loss_pct)`
from `main.py`: extract the parallel price lists, compute the indicator
series, and fold the loop body over indices `range(2, len(closes)-1)`. -/
def run_backtest (candles : List Candle)
    (initial_balance risk_per_trade stop_loss_pct : ℚ) : BacktestResult :=
  let closes := candles.map Candle.close
  let highs := candles.map Candle.high
  let lows := candles.map Candle.low
  let volumes := candles.map Candle.volume
  let times := candles.map Candle.time
  let ema_fast := ema closes (EMA_FAST : ℚ)
  let ema_slow := ema closes (EMA_SLOW : ℚ)
  let rsi_list := rsi closes RSI_PERIOD
  let atr_list := if 20 < closes.length then atr highs lows closes 14
    else List.replicate closes.length 0
  let final := (List.range' 2 (closes.length - 3)).foldl
    (step VOLUME_MULTIPLIER risk_per_trade stop_loss_pct closes lows volumes
      times ema_fast ema_slow rsi_list)
    { equity := initial_balance, position := none, trades_bt := [] }
  let _ := atr_list
  { initial_balance := initial_balance, final_balance := final.equity,
    trades := final.trades_bt }

/-! ## Indicator lemmas -/

/-- Helper `emaAux` preserves length. -/
theorem emaAux_length (alpha : ℚ) (prev : ℚ) (l : List ℚ) :
    (emaAux alpha prev l).length = l.length := by
  induction l generalizing prev with
  | nil => rfl
  | cons v vs ih => simp [emaAux, ih]

/-- The EMA recurrence, stated on the seeded output list. -/
theorem emaAux_getD_succ (alpha : ℚ) (prev : ℚ) (l : List ℚ) (i : ℕ)
    (h : i < l.length) :
    (prev :: emaAux alpha prev l).getD (i + 1) 0 =
      (l.getD i 0 - (prev :: emaAux alpha prev l).getD i 0) * alpha +
        (prev :: emaAux alpha prev l).getD i 0 := by
  induction l generalizing prev i with
  | nil => simp at h
  | cons v vs ih =>
    cases i with
    | zero => simp [emaAux]
    | succ j =>
      have hj : j < vs.length := by simpa using h
      simpa [emaAux] using ih ((v - prev) * alpha + prev) j hj

/-- C8: `ema` returns the empty list iff the input is empty; on non-empty
input it has the input's length, starts at `values[0]`, and satisfies
`out[i+1] = (values[i+1] - out[i]) * alpha + out[i]` with
`alpha = 2/(span+1)`. -/
theorem ema_seed_length_recurrence (values : List ℚ) (span : ℚ) :
    (ema values span = [] ↔ values = []) ∧
    (ema values span).length = values.length ∧
    (values ≠ [] → (ema values span).getD 0 0 = values.getD 0 0) ∧
    ∀ i, i + 1 < values.length →
      (ema values span).getD (i + 1) 0 =
        (values.getD (i + 1) 0 - (ema values span).getD i 0) * (2 / (span + 1)) +
          (ema values span).getD i 0 := by
  cases values with
  | nil => simp [ema]
  | cons v0 rest =>
    refine ⟨by simp [ema], by simp [ema, emaAux_length], by simp [ema], ?_⟩
    intro i hi
    have hi' : i < rest.length := by simpa using hi
    simpa [ema] using emaAux_getD_succ (2 / (span + 1)) v0 rest i hi'

/-- C8 witness: the recurrence evaluated on a concrete input. -/
theorem ema_seed_length_recurrence_witness :
    (ema [1, 2, 10] 8).getD 1 0 =
      (([1, 2, 10] : List ℚ).getD 1 0 - (ema [1, 2, 10] 8).getD 0 0) *
          (2 / (8 + 1)) + (ema [1, 2, 10] 8).getD 0 0 :=
  (ema_seed_length_recurrence [1, 2, 10] 8).2.2.2 0 (by decide)

/-- C7: with fewer than `period+1` input values, `rsi` returns a constant
list of `50`s of the input's length (no error). -/
theorem rsi_insufficient_data (values : List ℚ) (period : ℕ)
    (h : values.length < period + 1) :
    rsi values period = List.replicate values.length 50 := by
  simp [rsi, h]

/-- C7 witness: two values with period 14. -/
theorem rsi_insufficient_data_witness :
    rsi [3, 7] 14 = List.replicate 2 50 :=
  rsi_insufficient_data [3, 7] 14 (by decide)

/-! ## Backtest-engine lemmas -/

/-- C10: with fewer than 4 candles the scan loop of `run_backtest` runs zero
iterations, so the result is the initial balance and an empty ledger. -/
theorem run_backtest_short_input (candles : List Candle) (ib r s : ℚ)
    (h : candles.length < 4) :
    (run_backtest candles ib r s).final_balance = ib ∧
    (run_backtest candles ib r s).trades = [] := by
  have h3 : candles.length - 3 = 0 := by omega
  constructor <;> simp [run_backtest, h3]

/-- A sample candle for concrete instantiations. -/
def sampleCandle : Candle :=
  { time := 0, opn := 1, high := 2, low := 0, close := 1, volume := 5 }

/-- C10 witness: a single-candle run. -/
theorem run_backtest_short_input_witness :
    (run_backtest [sampleCandle] 10 (2/100) (1/100)).final_balance = 10 ∧
    (run_backtest [sampleCandle] 10 (2/100) (1/100)).trades = [] :=
  run_backtest_short_input [sampleCandle] 10 (2/100) (1/100) (by decide)

/-- C5: the volume filter is vacuously true while fewer than 21 bars precede
the evaluated bar `i-1`; once `21 ≤ i-1` it holds iff the evaluated bar's
volume strictly exceeds `volume_multiplier` times the mean volume of the 20
bars `volumes[i-21 .. i-2]`. -/
theorem volume_filter_rule (vm : ℚ) (volumes : List ℚ) (i : ℕ) :
    (i - 1 < 21 → vol_ok vm volumes i = true) ∧
    (21 ≤ i - 1 →
      (vol_ok vm volumes i = true ↔
        vm * (((volumes.drop (i - 21)).take 20).sum / 20) <
          volumes.getD (i - 1) 0)) := by
  constructor
  · intro h
    have hn : ¬ 21 < i := by omega
    simp [vol_ok, hn]
  · intro h
    have hy : 21 < i := by omega
    simp [vol_ok, hy, mul_comm]

/-- C5 witness: at `i = 22`, with 20 unit-volume bars in the window and an
evaluated bar of volume 2, the filter passes. -/
theorem volume_filter_rule_witness :
    vol_ok 1 (List.replicate 21 1 ++ [2, 9]) 22 = true :=
  ((volume_filter_rule 1 (List.replicate 21 1 ++ [2, 9]) 22).2
    (by decide)).mpr (by norm_num [List.replicate])

/-- Case analysis of one loop iteration: either the state is unchanged, or a
position is opened from the flat state (equity and ledger untouched), or the
held position is closed at some exit price `x`, liquidating equity to
`qty * x` and appending exactly one trade. -/
theorem step_cases (vm r s : ℚ) (closes lows volumes : List ℚ)
    (times : List ℤ) (ef es rl : List ℚ) (st : BTState) (i : ℕ) :
    step vm r s closes lows volumes times ef es rl st i = st ∨
    (∃ q : Position, st.position = none ∧
      step vm r s closes lows volumes times ef es rl st i =
        { st with position := some q }) ∨
    (∃ (p : Position) (x : ℚ) (reason : String), st.position = some p ∧
      step vm r s closes lows volumes times ef es rl st i =
        { equity := p.qty * x, position := none,
          trades_bt := st.trades_bt ++
            [{ time := times.getD i 0, symbol := "", entry := p.entry,
               exit := x, profit := p.qty * x - p.qty * p.entry,
               balance_after := p.qty * x, reason := reason }] }) := by
  obtain ⟨e, posn, tr⟩ := st
  by_cases hg : (ef.length ≤ i ∨ es.length ≤ i ∨
      ((rl.length : ℤ) ≤ (i : ℤ) - 1))
  · left; simp only [step, if_pos hg]
  · cases posn with
    | none =>
      by_cases hc : (cross_up ef es i && vol_ok vm volumes i &&
          rsi_ok rl i) = true
      · right; left
        refine ⟨{ entry := closes.getD i 0,
                  qty := max (1 / 10 ^ 8) (if s ≤ 0 then e / closes.getD i 0
                           else e * r / (closes.getD i 0 * s)),
                  stop := closes.getD i 0 * (1 - s),
                  entry_time := times.getD i 0 }, rfl, ?_⟩
        simp only [step, if_neg hg, if_pos hc]
      · left; simp only [step, if_neg hg, if_neg hc]
    | some p =>
      by_cases hstop : lows.getD i 0 ≤ p.stop
      · right; right
        refine ⟨p, p.stop, "SL", rfl, ?_⟩
        simp only [step, if_neg hg, if_pos hstop]
      · by_cases hx : cross_down ef es i = true
        · right; right
          refine ⟨p, closes.getD i 0, "X", rfl, ?_⟩
          simp only [step, if_neg hg, if_neg hstop, if_pos hx]
        · left; simp only [step, if_neg hg, if_neg hstop, if_neg hx]

/-- C2: the loop state holds at most one position by construction
(`Option Position`), and one iteration from a holding state either keeps the
very same position or closes it — it never replaces or re-enters; a new
position can appear only from the flat state. -/
theorem single_position_invariant (vm r s : ℚ)
    (closes lows volumes : List ℚ) (times : List ℤ)
    (ef es rl : List ℚ) (st : BTState) (i : ℕ) :
    (step vm r s closes lows volumes times ef es rl st i).position
        = st.position ∨
    (step vm r s closes lows volumes times ef es rl st i).position = none ∨
    st.position = none := by
  rcases step_cases vm r s closes lows volumes times ef es rl st i with
    heq | ⟨q, hq, heq⟩ | ⟨p, x, reason, hp, heq⟩
  · left; rw [heq]
  · right; right; exact hq
  · right; left; rw [heq]

/-- Closing a held position on a stop hit: with the guard indices in range
and `lows[i] ≤ stop`, the iteration closes at exactly the stop price with
reason `"SL"`. -/
theorem step_stop_close (vm r s : ℚ) (closes lows volumes : List ℚ)
    (times : List ℤ) (ef es rl : List ℚ) (st : BTState) (i : ℕ) (p : Position)
    (hg1 : i < ef.length) (hg2 : i < es.length)
    (hg3 : (i : ℤ) - 1 < (rl.length : ℤ))
    (hp : st.position = some p) (hstop : lows.getD i 0 ≤ p.stop) :
    step vm r s closes lows volumes times ef es rl st i =
      { equity := p.qty * p.stop, position := none,
        trades_bt := st.trades_bt ++
          [{ time := times.getD i 0, symbol := "", entry := p.entry,
             exit := p.stop, profit := p.qty * p.stop - p.qty * p.entry,
             balance_after := p.qty * p.stop, reason := "SL" }] } := by
  have hg : ¬ (ef.length ≤ i ∨ es.length ≤ i ∨
      ((rl.length : ℤ) ≤ (i : ℤ) - 1)) := by
    push_neg
    exact ⟨by omega, by omega, hg3⟩
  obtain ⟨e, posn, tr⟩ := st
  have hp2 : posn = some p := hp
  subst hp2
  simp only [step, if_neg hg, if_pos hstop]

/-- C4: while holding, a bar whose low reaches the stop closes the trade at
exactly the stop price with reason `"SL"`, and this branch takes priority
over the crossover exit (no condition on `cross_down` is needed); only when
the stop does not trigger does `cross_down` close the trade at `closes[i]`
with reason `"X"`. -/
theorem stop_priority_rule (vm r s : ℚ) (closes lows volumes : List ℚ)
    (times : List ℤ) (ef es rl : List ℚ) (st : BTState) (i : ℕ) (p : Position)
    (hg1 : i < ef.length) (hg2 : i < es.length)
    (hg3 : (i : ℤ) - 1 < (rl.length : ℤ))
    (hp : st.position = some p) :
    (lows.getD i 0 ≤ p.stop →
      step vm r s closes lows volumes times ef es rl st i =
        { equity := p.qty * p.stop, position := none,
          trades_bt := st.trades_bt ++
            [{ time := times.getD i 0, symbol := "", entry := p.entry,
               exit := p.stop, profit := p.qty * p.stop - p.qty * p.entry,
               balance_after := p.qty * p.stop, reason := "SL" }] }) ∧
    (¬ lows.getD i 0 ≤ p.stop → cross_down ef es i = true →
      step vm r s closes lows volumes times ef es rl st i =
        { equity := p.qty * closes.getD i 0, position := none,
          trades_bt := st.trades_bt ++
            [{ time := times.getD i 0, symbol := "", entry := p.entry,
               exit := closes.getD i 0,
               profit := p.qty * closes.getD i 0 - p.qty * p.entry,
               balance_after := p.qty * closes.getD i 0, reason := "X" }] }) := by
  constructor
  · intro hstop
    exact step_stop_close vm r s closes lows volumes times ef es rl st i p
      hg1 hg2 hg3 hp hstop
  · intro hstop hx
    have hg : ¬ (ef.length ≤ i ∨ es.length ≤ i ∨
        ((rl.length : ℤ) ≤ (i : ℤ) - 1)) := by
      push_neg
      exact ⟨by omega, by omega, hg3⟩
    obtain ⟨e, posn, tr⟩ := st
    have hp2 : posn = some p := hp
    subst hp2
    simp only [step, if_neg hg, if_neg hstop, if_pos hx]

/-- C4 witness: a held position `⟨10, 20, 9, 0⟩` and a bar with low 9 hitting
the stop 9 closes at the stop with reason `"SL"`, even though `cross_down`
also holds at this bar (`es = [1, 2, 1]`, `ef = [1, 1, 1]`). -/
theorem stop_priority_rule_witness :
    step 1 (2/100) (1/100) [10, 10, 8] [0, 0, 9] [1, 1, 1] [0, 0, 7]
        [1, 1, 1] [1, 2, 1] [50, 50, 50]
        { equity := 3, position := some { entry := 10, qty := 20, stop := 9,
                                          entry_time := 0 },
          trades_bt := [] } 2 =
      { equity := 20 * 9, position := none,
        trades_bt := [] ++
          [{ time := 7, symbol := "", entry := 10, exit := 9,
             profit := 20 * 9 - 20 * 10, balance_after := 20 * 9,
             reason := "SL" }] } :=
  (stop_priority_rule 1 (2/100) (1/100) [10, 10, 8] [0, 0, 9] [1, 1, 1]
      [0, 0, 7] [1, 1, 1] [1, 2, 1] [50, 50, 50] _ 2 _
      (by decide) (by decide) (by decide) rfl).1 (by norm_num)

/-- The equity/ledger frame of one iteration: either the ledger and equity
are untouched, or the position closes, equity becomes `qty * exit`, and the
one appended trade records `profit = qty*exit - qty*entry` and
`balance_after` equal to the new equity. -/
theorem step_frame (vm r s : ℚ) (closes lows volumes : List ℚ)
    (times : List ℤ) (ef es rl : List ℚ) (st : BTState) (i : ℕ) :
    ((step vm r s closes lows volumes times ef es rl st i).trades_bt =
        st.trades_bt ∧
      (step vm r s closes lows volumes times ef es rl st i).equity =
        st.equity) ∨
    (∃ (p : Position) (t : Trade), st.position = some p ∧
      (step vm r s closes lows volumes times ef es rl st i).position = none ∧
      (step vm r s closes lows volumes times ef es rl st i).trades_bt =
        st.trades_bt ++ [t] ∧
      t.profit = p.qty * t.exit - p.qty * p.entry ∧
      (step vm r s closes lows volumes times ef es rl st i).equity =
        p.qty * t.exit ∧
      t.balance_after = p.qty * t.exit) := by
  rcases step_cases vm r s closes lows volumes times ef es rl st i with
    heq | ⟨q, hq, heq⟩ | ⟨p, x, reason, hp, heq⟩
  · left; rw [heq]; exact ⟨rfl, rfl⟩
  · left; rw [heq]; exact ⟨rfl, rfl⟩
  · right
    exact ⟨p, _, hp, by rw [heq], by rw [heq], rfl, by rw [heq], rfl⟩

/-- Equity always equals the `balance_after` of the last recorded trade (or
the initial balance before any trade), and the loop preserves this. -/
theorem foldl_step_balance (vm r s : ℚ) (closes lows volumes : List ℚ)
    (times : List ℤ) (ef es rl : List ℚ) (ib : ℚ) (L : List ℕ) :
    ∀ st : BTState,
      st.equity = (st.trades_bt.getLast?).elim ib Trade.balance_after →
      (L.foldl (step vm r s closes lows volumes times ef es rl) st).equity =
        (((L.foldl (step vm r s closes lows volumes times ef es rl)
            st).trades_bt.getLast?).elim ib Trade.balance_after) := by
  induction L with
  | nil => intro st h; simpa using h
  | cons a L ih =>
    intro st h
    simp only [List.foldl_cons]
    apply ih
    rcases step_frame vm r s closes lows volumes times ef es rl st a with
      ⟨ht, he⟩ | ⟨p, t, hp, hpos, ht, hprofit, he, hb⟩
    · rw [ht, he]; exact h
    · rw [ht, he, List.getLast?_concat]
      simpa using hb.symm

/-- C3: equity changes only when a position closes, exactly once per close:
one loop iteration either leaves both the ledger and equity untouched (entry
bars and no-exit bars included), or closes the held position, sets equity to
the full liquidated proceeds `qty * exit`, and appends exactly one trade with
`profit = qty*exit - qty*entry` and `balance_after` the new equity; and over
a whole run `final_balance` is the last closed trade's `balance_after` (the
initial balance when no trade closed) — an open position at the end is not
reflected. -/
theorem equity_frame_rule :
    (∀ (vm r s : ℚ) (closes lows volumes : List ℚ) (times : List ℤ)
        (ef es rl : List ℚ) (st : BTState) (i : ℕ),
      ((step vm r s closes lows volumes times ef es rl st i).trades_bt =
          st.trades_bt ∧
        (step vm r s closes lows volumes times ef es rl st i).equity =
          st.equity) ∨
      (∃ (p : Position) (t : Trade), st.position = some p ∧
        (step vm r s closes lows volumes times ef es rl st i).position =
          none ∧
        (step vm r s closes lows volumes times ef es rl st i).trades_bt =
          st.trades_bt ++ [t] ∧
        t.profit = p.qty * t.exit - p.qty * p.entry ∧
        (step vm r s closes lows volumes times ef es rl st i).equity =
          p.qty * t.exit ∧
        t.balance_after = p.qty * t.exit)) ∧
    ∀ (candles : List Candle) (ib r s : ℚ),
      (run_backtest candles ib r s).final_balance =
        ((run_backtest candles ib r s).trades.getLast?).elim ib
          Trade.balance_after := by
  constructor
  · intro vm r s closes lows volumes times ef es rl st i
    exact step_frame vm r s closes lows volumes times ef es rl st i
  · intro candles ib r s
    simp only [run_backtest]
    apply foldl_step_balance
    simp

/-- C1: a position opened from equity `E` with `stop_loss_pct = s > 0` whose
computed quantity `E*r/(price*s)` was not clamped by the `1e-8` floor, when
later closed by a stop hit, realizes a loss of exactly `E * r`: the appended
trade carries `profit = -(E * r)`, independent of the entry price. -/
theorem risk_sizing_law (vm r s : ℚ) (closes lows volumes : List ℚ)
    (times : List ℤ) (ef es rl : List ℚ) (st st2 : BTState) (i j : ℕ)
    (p : Position) (hs : 0 < s) (h1 : st.position = none)
    (h2 : (step vm r s closes lows volumes times ef es rl st i).position =
      some p)
    (hnc : 1 / 10 ^ 8 ≤ st.equity * r / (closes.getD i 0 * s))
    (h3 : st2.position = some p)
    (hj1 : j < ef.length) (hj2 : j < es.length)
    (hj3 : (j : ℤ) - 1 < (rl.length : ℤ))
    (hstop : lows.getD j 0 ≤ p.stop) :
    (step vm r s closes lows volumes times ef es rl st2 j).trades_bt =
      st2.trades_bt ++
        [{ time := times.getD j 0, symbol := "", entry := p.entry,
           exit := p.stop, profit := -(st.equity * r),
           balance_after := p.qty * p.stop, reason := "SL" }] := by
  by_cases hg : (ef.length ≤ i ∨ es.length ≤ i ∨
      ((rl.length : ℤ) ≤ (i : ℤ) - 1))
  · rw [show step vm r s closes lows volumes times ef es rl st i = st from
      by simp only [step, if_pos hg], h1] at h2
    exact absurd h2 (by simp)
  · by_cases hc : (cross_up ef es i && vol_ok vm volumes i &&
        rsi_ok rl i) = true
    · simp only [step, h1, if_neg hg, if_pos hc] at h2
      have hd : closes.getD i 0 * s ≠ 0 := by
        intro h0
        rw [h0, div_zero] at hnc
        norm_num at hnc
      have hp0 : closes.getD i 0 ≠ 0 := fun h => hd (by rw [h]; ring)
      have hs0 : s ≠ 0 := ne_of_gt hs
      have hmax : max (1 / 10 ^ 8)
          (if s ≤ 0 then st.equity / closes.getD i 0
            else st.equity * r / (closes.getD i 0 * s)) =
          st.equity * r / (closes.getD i 0 * s) := by
        rw [if_neg (not_le.mpr hs)]
        exact max_eq_right hnc
      obtain rfl : p = { entry := closes.getD i 0,
                         qty := st.equity * r / (closes.getD i 0 * s),
                         stop := closes.getD i 0 * (1 - s),
                         entry_time := times.getD i 0 } := by
        have h2' := Option.some.inj h2
        rw [← h2', hmax]
      rw [step_stop_close vm r s closes lows volumes times ef es rl st2 j _
        hj1 hj2 hj3 h3 hstop]
      simp only [List.append_cancel_left_eq, List.cons.injEq, and_true,
        Trade.mk.injEq, true_and]
      have key : ∀ P E : ℚ, P * s ≠ 0 →
          E * r / (P * s) * (P * (1 - s)) - E * r / (P * s) * P = -(E * r) := by
        intro P E hPs
        have hP : P ≠ 0 := fun h => hPs (by rw [h]; ring)
        field_simp
        ring
      exact key (closes.getD i 0) st.equity hd
    · rw [show step vm r s closes lows volumes times ef es rl st i = st from
        by simp only [step, if_neg hg, h1, if_neg hc], h1] at h2
      exact absurd h2 (by simp)

/-- C1 witness: entry at equity 100 and price 10 with `r = 1/50`,
`s = 1/100` sizes the position to quantity 20 and stop `99/10`; a later
stop hit books a profit of exactly `-(100 * (1/50)) = -2`. -/
theorem risk_sizing_law_witness :
    (step 1 (1/50) (1/100) [1, 1, 10] [1, 1, 9] [1, 1, 1] [11, 12, 13]
        [1, 2, 0] [1, 3/2, 0] [50, 50, 50]
        { equity := 7, position := some { entry := 10, qty := 20,
                                          stop := 99/10, entry_time := 13 },
          trades_bt := [] } 2).trades_bt =
      [] ++ [{ time := 13, symbol := "", entry := 10, exit := 99/10,
               profit := -(100 * (1/50)), balance_after := 20 * (99/10),
               reason := "SL" }] :=
  risk_sizing_law 1 (1/50) (1/100) [1, 1, 10] [1, 1, 9] [1, 1, 1]
    [11, 12, 13] [1, 2, 0] [1, 3/2, 0] [50, 50, 50]
    { equity := 100, position := none, trades_bt := [] }
    { equity := 7, position := some { entry := 10, qty := 20,
                                      stop := 99/10, entry_time := 13 },
      trades_bt := [] }
    2 2 { entry := 10, qty := 20, stop := 99/10, entry_time := 13 }
    (by norm_num) rfl (by norm_num [step, cross_up, vol_ok, rsi_ok])
    (by norm_num) rfl (by decide) (by decide) (by decide) (by norm_num)

/-- Every output of the Wilder-smoothing loop lies in `[0, 100]`, given
nonnegative running averages and nonnegative gain/loss pairs. -/
theorem rsiGo_bounds (period : ℕ) (hp : 1 ≤ period) :
    ∀ (l : List (ℚ × ℚ)) (ua da : ℚ), 0 ≤ ua → 0 ≤ da →
      (∀ q ∈ l, 0 ≤ q.1 ∧ 0 ≤ q.2) →
      ∀ x ∈ rsiGo period ua da l, 0 ≤ x ∧ x ≤ 100 := by
  intro l
  induction l with
  | nil =>
    intro ua da _ _ _ x hx
    simp [rsiGo] at hx
  | cons hd tl ih =>
    intro ua da hua hda hmem x hx
    have hper : (0 : ℚ) < (period : ℚ) := by
      exact_mod_cast Nat.lt_of_lt_of_le Nat.zero_lt_one hp
    have hpm1 : (0 : ℚ) ≤ (period : ℚ) - 1 := by
      have h1 : (1 : ℚ) ≤ (period : ℚ) := by exact_mod_cast hp
      linarith
    have hd1 : 0 ≤ hd.1 := (hmem hd (List.mem_cons_self hd tl)).1
    have hd2 : 0 ≤ hd.2 := (hmem hd (List.mem_cons_self hd tl)).2
    have hua1 : 0 ≤ (ua * ((period : ℚ) - 1) + hd.1) / period :=
      div_nonneg (add_nonneg (mul_nonneg hua hpm1) hd1) hper.le
    have hda1 : 0 ≤ (da * ((period : ℚ) - 1) + hd.2) / period :=
      div_nonneg (add_nonneg (mul_nonneg hda hpm1) hd2) hper.le
    simp only [rsiGo, List.mem_cons] at hx
    rcases hx with hx | hx
    · subst hx
      set A := (ua * ((period : ℚ) - 1) + hd.1) / period with hA
      set B := (da * ((period : ℚ) - 1) + hd.2) / period with hB
      have hden : (0 : ℚ) < B + 1 / 10 ^ 12 :=
        add_pos_of_nonneg_of_pos hda1 (by norm_num)
      have hrs : 0 ≤ A / (B + 1 / 10 ^ 12) := div_nonneg hua1 hden.le
      have h1p : (1 : ℚ) ≤ 1 + A / (B + 1 / 10 ^ 12) := by linarith
      have hle : 100 / (1 + A / (B + 1 / 10 ^ 12)) ≤ 100 :=
        div_le_self (by norm_num) h1p
      have h0 : 0 ≤ 100 / (1 + A / (B + 1 / 10 ^ 12)) :=
        div_nonneg (by norm_num) (by linarith)
      exact ⟨by linarith, by linarith⟩
    · exact ih ((ua * ((period : ℚ) - 1) + hd.1) / period)
        ((da * ((period : ℚ) - 1) + hd.2) / period) hua1 hda1
        (fun q hq => hmem q (List.mem_cons_of_mem hd hq)) x hx

/-- C6: for any input list and any period ≥ 1, every value produced by `rsi`
lies in the closed interval `[0, 100]`. -/
theorem rsi_bounds_in_unit_range (values : List ℚ) (period : ℕ)
    (hp : 1 ≤ period) :
    ∀ x ∈ rsi values period, 0 ≤ x ∧ x ≤ 100 := by
  intro x hx
  simp only [rsi] at hx
  split at hx
  · have h50 := List.eq_of_mem_replicate hx
    subst h50
    norm_num
  · rcases List.mem_append.mp hx with hx | hx
    · have h50 := List.eq_of_mem_replicate hx
      subst h50
      norm_num
    · refine rsiGo_bounds period hp _ _ _ ?_ ?_ ?_ x hx
      · refine div_nonneg (List.sum_nonneg ?_) (by positivity)
        intro y hy
        obtain ⟨d, hd, rfl⟩ := List.mem_map.mp (List.mem_of_mem_take hy)
        split
        · linarith
        · exact le_refl 0
      · split
        · norm_num
        · refine div_nonneg (List.sum_nonneg ?_) (by positivity)
          intro y hy
          obtain ⟨d, hd, rfl⟩ := List.mem_map.mp (List.mem_of_mem_take hy)
          split
          · linarith
          · exact le_refl 0
      · intro q hq
        obtain ⟨hq1, hq2⟩ := List.of_mem_zip (by
          rw [show q = (q.1, q.2) from rfl] at hq
          exact hq)
        constructor
        · obtain ⟨d, hd, h⟩ := List.mem_map.mp (List.mem_of_mem_drop hq1)
          rw [← h]
          split
          · linarith
          · exact le_refl 0
        · obtain ⟨d, hd, h⟩ := List.mem_map.mp (List.mem_of_mem_drop hq2)
          rw [← h]
          split
          · linarith
          · exact le_refl 0

/-- C6 witness: the neutral warm-up value of a short input. -/
theorem rsi_bounds_in_unit_range_witness : (0 : ℚ) ≤ 50 ∧ (50 : ℚ) ≤ 100 :=
  rsi_bounds_in_unit_range [1, 2] 14 (by decide) 50 (by norm_num [rsi])

/-- Spec-side `smaSpec` has one output per window start. -/
theorem smaSpec_length (values : List ℚ) (period : ℕ) :
    (smaSpec values period).length = values.length + 1 - period := by
  simp [smaSpec]

/-- Each `smaSpec` entry is the mean of the window starting at its index. -/
theorem smaSpec_getD (values : List ℚ) (period idx : ℕ)
    (h : idx < values.length + 1 - period) :
    (smaSpec values period).getD idx 0 =
      ((values.drop idx).take period).sum / period := by
  simp [smaSpec, List.getD_eq_getElem?_getD, List.getElem?_range, h]

/-- Extending the taken prefix by one element appends it to any suffix
window. -/
theorem sum_take_succ_drop (all : List ℚ) (i d : ℕ) (hd : d ≤ i)
    (hi : i < all.length) :
    ((all.take (i + 1)).drop d).sum =
      ((all.take i).drop d).sum + all.getD i 0 := by
  rw [List.take_succ, List.getElem?_eq_getElem hi]
  simp only [Option.toList_some]
  rw [List.drop_append_of_le_length (by simp [List.length_take]; omega),
    List.sum_append, List.getD_eq_getElem all 0 hi, List.sum_cons,
    List.sum_nil, add_zero]

/-- Splitting off the head of a window inside a taken prefix. -/
theorem sum_drop_head (all : List ℚ) (k d : ℕ) (hd : d < (all.take k).length) :
    ((all.take k).drop d).sum =
      all.getD d 0 + ((all.take k).drop (d + 1)).sum := by
  rw [List.drop_eq_getElem_cons hd, List.sum_cons]
  congr 1
  rw [List.getElem_take]
  exact (List.getD_eq_getElem all 0 (by simp [List.length_take] at hd; omega)).symm

/-- The running-sum loop, entered at index `i` with the correct window sum,
produces exactly the windowed means from window `i - (period-1)` onward. -/
theorem smaGo_drop (period : ℕ) (hp : 1 ≤ period) (all : List ℚ) :
    ∀ (rest : List ℚ) (i : ℕ) (s : ℚ), rest = all.drop i →
      s = ((all.take i).drop (i - period)).sum →
      smaGo period all i s rest =
        (smaSpec all period).drop (i - (period - 1)) := by
  intro rest
  induction rest with
  | nil =>
    intro i s hrest hs
    have hlen : all.length ≤ i := by
      have h := congrArg List.length hrest
      simp [List.length_drop] at h
      omega
    simp only [smaGo]
    symm
    apply List.drop_eq_nil_of_le
    rw [smaSpec_length]
    omega
  | cons v rest ih =>
    intro i s hrest hs
    have hi : i < all.length := by
      by_contra hcon
      push_neg at hcon
      rw [List.drop_eq_nil_of_le hcon] at hrest
      exact List.noConfusion hrest
    have hsplit : v :: rest = all[i] :: all.drop (i + 1) := by
      rw [hrest]
      exact List.drop_eq_getElem_cons hi
    injection hsplit with hv0 hrest2
    have hv : v = all.getD i 0 := by
      rw [hv0]
      exact (List.getD_eq_getElem all 0 hi).symm
    by_cases hpi : period ≤ i
    · -- full-window case: subtract the element leaving the window
      simp only [smaGo, if_pos hpi]
      have hs1 : s + v = ((all.take (i + 1)).drop (i - period)).sum := by
        rw [hs, hv]
        exact (sum_take_succ_drop all i (i - period) (by omega) hi).symm
      have hs2 : s + v - all.getD (i - period) 0 =
          ((all.take (i + 1)).drop (i - period + 1)).sum := by
        rw [hs1,
          sum_drop_head all (i + 1) (i - period)
            (by simp [List.length_take]; omega)]
        ring
      have hidx2 : i + 1 - period = i - period + 1 := by omega
      have hrec := ih (i + 1) (s + v - all.getD (i - period) 0) hrest2
        (by rw [hidx2]; exact hs2)
      have hlt : i - (period - 1) < (smaSpec all period).length := by
        rw [smaSpec_length]; omega
      rw [List.drop_eq_getElem_cons hlt]
      congr 1
      · rw [hs2, ← List.getD_eq_getElem (smaSpec all period) 0 hlt,
          smaSpec_getD all period (i - (period - 1)) (by omega)]
        have e1 : i - (period - 1) = i - period + 1 := by omega
        have e2 : i + 1 - (i - period + 1) = period := by omega
        rw [e1, List.drop_take, e2]
      · rw [hrec]
        congr 1
        omega
    · by_cases heq : (i : ℤ) = (period : ℤ) - 1
      · -- the first full window: emit the seed mean
        have hip : i + 1 = period := by omega
        simp only [smaGo, if_neg hpi, if_pos heq]
        have hs1 : s + v = (all.take (i + 1)).sum := by
          rw [hs, hv]
          have h0 : i - period = 0 := by omega
          rw [h0, List.drop_zero]
          simpa using (sum_take_succ_drop all i 0 (Nat.zero_le i) hi).symm
        have hrec := ih (i + 1) (s + v) hrest2 (by
          rw [hs1]
          have h0 : i + 1 - period = 0 := by omega
          rw [h0, List.drop_zero])
        have h0idx : i - (period - 1) = 0 := by omega
        have hlt : 0 < (smaSpec all period).length := by
          rw [smaSpec_length]; omega
        rw [h0idx, List.drop_eq_getElem_cons hlt]
        congr 1
        · rw [hs1, hip, ← List.getD_eq_getElem (smaSpec all period) 0 hlt,
            smaSpec_getD all period 0 (by omega), List.drop_zero]
        · rw [hrec]
          congr 1
          omega
      · -- still warming up: no output
        simp only [smaGo, if_neg hpi, if_neg heq]
        have hs1 : s + v = (all.take (i + 1)).sum := by
          rw [hs, hv]
          have h0 : i - period = 0 := by omega
          rw [h0, List.drop_zero]
          simpa using (sum_take_succ_drop all i 0 (Nat.zero_le i) hi).symm
        have hrec := ih (i + 1) (s + v) hrest2 (by
          rw [hs1]
          have h0 : i + 1 - period = 0 := by omega
          rw [h0, List.drop_zero])
        rw [hrec]
        congr 1
        omega

/-- The running-sum `sma` coincides with the naive windowed mean. -/
theorem sma_eq_smaSpec (values : List ℚ) (period : ℕ) (hp : 1 ≤ period) :
    sma values period = smaSpec values period := by
  have h := smaGo_drop period hp values values 0 0 rfl (by simp)
  simpa [sma] using h

/-- C9: for `period ≥ 1` and at least `period` inputs, `sma` has
`len - (period-1)` outputs (first output at input index `period-1`), and the
output for input index `i` equals the arithmetic mean of
`values[i-period+1 .. i]` — the incremental running-sum implementation
coincides with naive per-window recomputation. -/
theorem sma_running_sum_matches_windowed_mean (values : List ℚ) (period : ℕ)
    (hp : 1 ≤ period) (hlen : period ≤ values.length) :
    (sma values period).length = values.length - (period - 1) ∧
    sma values period = smaSpec values period ∧
    ∀ i, period - 1 ≤ i → i < values.length →
      (sma values period).getD (i - (period - 1)) 0 =
        ((values.drop (i + 1 - period)).take period).sum / period := by
  have heq := sma_eq_smaSpec values period hp
  refine ⟨?_, heq, ?_⟩
  · rw [heq, smaSpec_length]; omega
  · intro i h1 h2
    rw [heq, smaSpec_getD values period _ (by omega)]
    have h3 : i - (period - 1) = i + 1 - period := by omega
    rw [h3]

/-- C9 witness: `sma` on four values with period 2 has `4 - 1` outputs. -/
theorem sma_running_sum_matches_windowed_mean_witness :
    (sma [1, 2, 3, 4] 2).length = 4 - (2 - 1) :=
  (sma_running_sum_matches_windowed_mean [1, 2, 3, 4] 2
    (by decide) (by decide)).1

end TradeBot
